import Mathlib

/-!
# Verification of the `audiotools` parallel transcoding scheduler

Shallow embedding of `scheduler.py` from `belaudiobooks/audiotools`.

The embedded code:
* the worker loop `Scheduler._wait_till_finished` (stderr chunk reading,
  `time=HH:MM:SS` regex scanning, percentage arithmetic `int(100 * t / d)`,
  the `poll() == 0` break condition, the final forced `100` write and the
  follow-up call to `_maybe_run_job`);
* the scheduler state machine (`enqueue_job`, `_clean_threads`,
  `_maybe_run_job`, `wait_till_all_finished`), driven by external events
  (process exits, worker thread completions/faults);
* the progress reporter `_print_progress` over an insertion-ordered
  association list modelling the Python dict `_current_progress`;
* `os.path.basename` and the dict-update used for Progress Table keys;
* the lock acquire/release structure of each method, as primitive-operation
  traces, for the lock-discipline claims.
-/

namespace Audiotools

/-! ## Regex scanning: `re.findall("time=(\\d+):(\\d+):(\\d+)", buffer)`

`findTime` returns the leftmost match of the pattern in a character list,
as the three digit groups converted to `Nat` (Python later applies `int`
to each group; we fuse the conversion, `int("007") = 7`).  The pattern's
`\d+` groups are greedy; since each group is followed by a non-digit
(`:` or the end of the pattern), greedy matching coincides with taking the
maximal digit run, which is what `List.span` computes.  Python's `\d`
also matches non-ASCII Unicode digits; ffmpeg output is ASCII, and we model
ASCII digits only. -/

def digitsToNat (l : List Char) : Nat :=
  l.foldl (fun a c => 10 * a + (c.toNat - '0'.toNat)) 0

/-- Try to match `time=(\d+):(\d+):(\d+)` starting exactly at the head of
the list; `none` if the pattern does not match here. -/
def matchAt (l : List Char) : Option (Nat × Nat × Nat) :=
  match l with
  | 't' :: 'i' :: 'm' :: 'e' :: '=' :: rest =>
    match rest.span (·.isDigit) with
    | ([], _) => none
    | (h :: hs, r1) =>
      match r1 with
      | ':' :: r2 =>
        match r2.span (·.isDigit) with
        | ([], _) => none
        | (m :: ms, r3) =>
          match r3 with
          | ':' :: r4 =>
            match r4.span (·.isDigit) with
            | ([], _) => none
            | (s :: ss, _) =>
              some (digitsToNat (h :: hs), digitsToNat (m :: ms),
                    digitsToNat (s :: ss))
          | _ => none
      | _ => none
  | _ => none

/-- Leftmost match of `time=(\d+):(\d+):(\d+)`: the first element of
Python's `re.findall` result (`matches[0]` in the worker loop). -/
def findTime : List Char → Option (Nat × Nat × Nat)
  | [] => none
  | c :: rest =>
    match matchAt (c :: rest) with
    | some t => some t
    | none => findTime rest

/-! ## Percentage arithmetic

`int(x)` on a Python float truncates toward zero.  Durations come from
`ffmpeg.probe` as floats; we model them exactly as rationals. -/

/-- Python `int(q)` on a real-valued quantity: truncation toward zero
(`Int.tdiv` is T-division, which truncates toward zero; a rational's
denominator is positive). -/
def pyInt (q : ℚ) : ℤ :=
  q.num.tdiv q.den

/-- `int(hour) * 3600 + int(min) * 60 + int(sec)` from the worker loop. -/
def elapsedSeconds (h m s : Nat) : Nat :=
  h * 3600 + m * 60 + s

/-- `int(100 * elapsed / expected_duration)`: the percentage the worker
writes for a match elapsed `t` seconds into a file of expected duration
`d` seconds. -/
def progressOf (d : ℚ) (t : ℕ) : ℤ :=
  pyInt (100 * (t : ℚ) / d)

/-! ## The worker loop `_wait_till_finished`

The loop body's inputs from the outside world are, per iteration, the
decoded 10-byte chunk read from `process.stderr` and the result of
`process.poll()` (`none` while the process runs, `some code` after exit).
A finite `script` of such cycles drives the loop.  Per iteration the code:

1. appends the chunk to `buffer`;
2. if the buffer contains a `time=` match, clears the buffer, computes
   `progress = int(100 * elapsed / expected_duration)` — which raises
   `ZeroDivisionError` when `expected_duration == 0` — and writes it to
   the Progress Table;
3. breaks iff `process.poll() == 0`.

On normal loop exit the worker writes the forced `100` and then calls
`_maybe_run_job`.  A raised exception kills the thread: no forced write,
no refill call. -/

structure Cycle where
  chunk : List Char
  poll : Option ℤ
deriving DecidableEq

inductive Outcome where
  | finished
  | faulted
  | outOfInput
deriving DecidableEq

structure WorkerRun where
  /-- Values written to this job's Progress Table entry, in program order,
  including the final forced `100` on normal exit. -/
  writes : List ℤ
  /-- Elapsed seconds of each timestamp match actually used, in order. -/
  matched : List Nat
  outcome : Outcome
  /-- Whether the worker reached the trailing `self._maybe_run_job()`. -/
  calledMaybeRun : Bool
deriving DecidableEq

def runWorkerAux (d : ℚ) : List Cycle → List Char → WorkerRun
  | [], _ => ⟨[], [], .outOfInput, false⟩
  | c :: rest, buffer =>
    let buf := buffer ++ c.chunk
    match findTime buf with
    | some (h, m, s) =>
      if d = 0 then
        ⟨[], [], .faulted, false⟩
      else
        let t := elapsedSeconds h m s
        let w := progressOf d t
        if c.poll = some 0 then
          ⟨[w, 100], [t], .finished, true⟩
        else
          let r := runWorkerAux d rest []
          ⟨w :: r.writes, t :: r.matched, r.outcome, r.calledMaybeRun⟩
    | none =>
      if c.poll = some 0 then
        ⟨[100], [], .finished, true⟩
      else
        runWorkerAux d rest buf

/-- `_wait_till_finished` for one process, driven by a finite cycle script;
the buffer starts empty. -/
def runWorker (script : List Cycle) (d : ℚ) : WorkerRun :=
  runWorkerAux d script []

/-! ## The scheduler state machine

`Scheduler` holds `_waiting_jobs` (a FIFO list) and `_running_threads`.
We identify each enqueued job by an environment-chosen natural number and
give each spawned worker thread a unique id `wid` (threads are distinct
Python objects even when two jobs are equal).  A worker record tracks
whether its OS process has exited (and with which code) and whether its
thread has terminated; `_clean_threads` drops workers whose thread is no
longer alive (`thread.is_alive()` false).

Two ghost fields record history: `enqueued` (all jobs ever passed to
`enqueue_job`, in call order) and `launched` (all jobs ever popped from
the waiting queue by `_maybe_run_job`, in launch order). -/

structure Worker where
  wid : Nat
  jid : Nat
  /-- `none` while the OS process runs; `some code` after it exits. -/
  procExited : Option ℤ
  /-- Whether the watcher thread has terminated (normally or by a raised
  exception). -/
  threadDead : Bool
deriving DecidableEq

structure Sched where
  waiting : List Nat
  running : List Worker
  nextWid : Nat
  enqueued : List Nat
  launched : List Nat
deriving DecidableEq

def Sched.init : Sched :=
  ⟨[], [], 0, [], []⟩

/-- `max(multiprocessing.cpu_count() - 1, 1)` from `_maybe_run_job`. -/
def capacity (cpuCount : Nat) : Nat :=
  max (cpuCount - 1) 1

/-- `_clean_threads`: keep only workers whose thread is still alive. -/
def cleanThreads (s : Sched) : Sched :=
  { s with running := s.running.filter (fun w => !w.threadDead) }

/-- `_maybe_run_job`: reap dead threads, then — if a job is waiting and
strictly fewer than `cap` threads remain — pop the oldest waiting job,
start its process and register a fresh worker thread.  The Python body
launches at most one job per call (it is an `if`, not a `while`). -/
def maybeRunJob (cap : Nat) (s : Sched) : Sched :=
  let s := cleanThreads s
  match s.waiting with
  | [] => s
  | j :: rest =>
    if s.running.length < cap then
      { s with
        waiting := rest
        running := s.running ++ [⟨s.nextWid, j, none, false⟩]
        nextWid := s.nextWid + 1
        launched := s.launched ++ [j] }
    else
      s

/-- External events interleaved with the scheduler's own code.

* `enqueue j`: a caller runs `enqueue_job` (append, then `_maybe_run_job`).
* `procExit wid c`: the OS process supervised by worker `wid` exits with
  code `c`.
* `finish wid`: worker `wid`'s watch loop observes `poll() == 0` (enabled
  only when its process exited with code 0 — see `runWorker`: the loop
  breaks on no other condition), writes the forced 100, calls
  `_maybe_run_job` while its own thread is still alive, and then the
  thread terminates.
* `fault wid`: worker `wid`'s thread dies from a raised exception (e.g.
  `ZeroDivisionError` on a zero expected duration) without calling
  `_maybe_run_job`. -/
inductive Ev where
  | enqueue (j : Nat)
  | procExit (wid : Nat) (c : ℤ)
  | finish (wid : Nat)
  | fault (wid : Nat)
deriving DecidableEq

def markProcExited (wid : Nat) (c : ℤ) (l : List Worker) : List Worker :=
  l.map fun w =>
    if w.wid = wid ∧ w.procExited = none then { w with procExited := some c } else w

def markThreadDead (wid : Nat) (l : List Worker) : List Worker :=
  l.map fun w => if w.wid = wid then { w with threadDead := true } else w

/-- One event.  Events whose precondition fails (unknown worker id, thread
already dead, process already exited, exit code not 0 for `finish`) are
no-ops, so `step` is total and every event list denotes an execution. -/
def step (cap : Nat) (s : Sched) : Ev → Sched
  | .enqueue j =>
    maybeRunJob cap
      { s with waiting := s.waiting ++ [j], enqueued := s.enqueued ++ [j] }
  | .procExit wid c => { s with running := markProcExited wid c s.running }
  | .finish wid =>
    match s.running.find? (fun w => w.wid = wid) with
    | some w =>
      if w.procExited = some 0 ∧ w.threadDead = false then
        let s := maybeRunJob cap s
        { s with running := markThreadDead wid s.running }
      else
        s
    | none => s
  | .fault wid =>
    match s.running.find? (fun w => w.wid = wid) with
    | some w =>
      if w.threadDead = false then
        { s with running := markThreadDead wid s.running }
      else
        s
    | none => s

/-- The scheduler state after an arbitrary finite execution. -/
def run (cap : Nat) (evs : List Ev) : Sched :=
  evs.foldl (step cap) Sched.init

/-- Workers of the active set whose OS process has not exited yet. -/
def liveProcCount (s : Sched) : Nat :=
  s.running.countP (fun w => w.procExited = none)

/-! ## `wait_till_all_finished`

The loop body: `_clean_threads()`; under the lock, test
`len(_waiting_jobs) == 0 and len(_running_threads) == 0`; break if so;
otherwise `_print_progress()` and `time.sleep(2)`.  Worker threads run
concurrently, so before each cycle an arbitrary batch of events may fire;
a finite schedule (one event batch per cycle) drives the loop, and the
result records whether the loop returned within the schedule.  Each
cycle's observable actions are recorded as a trace. -/

inductive WaitEv where
  | reap
  | check (exit : Bool)
  | report
  | sleep (seconds : Nat)
deriving DecidableEq

structure WaitResult where
  final : Sched
  trace : List WaitEv
  returned : Bool
deriving DecidableEq

def waitLoop (cap : Nat) : List (List Ev) → Sched → WaitResult
  | [], s => ⟨s, [], false⟩
  | evs :: rest, s =>
    let s1 := evs.foldl (step cap) s
    let s2 := cleanThreads s1
    if s2.waiting = [] ∧ s2.running = [] then
      ⟨s2, [.reap, .check true], true⟩
    else
      let r := waitLoop cap rest s2
      ⟨r.final, .reap :: .check false :: .report :: .sleep 2 :: r.trace, r.returned⟩

/-- The trace of a run of `wait_till_all_finished` that performs `k` full
poll cycles and then either returns (reap + successful check) or has
exhausted its schedule. -/
def waitTrace (k : Nat) (returned : Bool) : List WaitEv :=
  (List.replicate k [WaitEv.reap, .check false, .report, .sleep 2]).flatten ++
    (if returned then [WaitEv.reap, .check true] else [])

/-! ## The Progress Table and `_print_progress`

`_current_progress` is a Python dict; we model it as an insertion-ordered
association list with (in well-formed states) pairwise distinct keys. -/

/-- Python `d[k]` lookup (as an `Option`). -/
def dictGet (t : List (String × ℤ)) (k : String) : Option ℤ :=
  (t.find? (fun e => e.1 = k)).map (·.2)

/-- Python `d[k] = v`: overwrite in place if the key exists (its position
is preserved), else append. -/
def dictSet (t : List (String × ℤ)) (k : String) (v : ℤ) : List (String × ℤ) :=
  if t.any (fun e => e.1 = k) then
    t.map (fun e => if e.1 = k then (k, v) else e)
  else
    t ++ [(k, v)]

/-- Python `d.pop(k)`: remove the entry with key `k`. -/
def dictPop (t : List (String × ℤ)) (k : String) : List (String × ℤ) :=
  t.eraseP (fun e => e.1 = k)

/-- `f"{file}: {progress}%"`. -/
def fmtEntry (e : String × ℤ) : String :=
  e.1 ++ ": " ++ toString e.2 ++ "%"

/-- The eviction loop of `_print_progress`:
`for file in list(progress.keys()): if progress[file] == 100: progress.pop(file)`. -/
def evictLoop : List String → List (String × ℤ) → List (String × ℤ)
  | [], t => t
  | k :: ks, t =>
    evictLoop ks (if dictGet t k = some 100 then dictPop t k else t)

/-- `_print_progress`: format every current entry (first component), then
evict the entries at 100 (second component is the table left behind). -/
def printProgress (t : List (String × ℤ)) : List String × List (String × ℤ) :=
  (t.map fmtEntry, evictLoop (t.map (·.1)) t)

/-! ## Progress Table keys: `os.path.basename` -/

/-- POSIX `os.path.basename`: everything after the last `/` (the whole
string when there is no `/`). -/
def basename (p : String) : String :=
  ⟨(p.data.reverse.takeWhile (fun c => c ≠ '/')).reverse⟩

/-- `short_name = os.path.basename(file)` from `_wait_till_finished`: the
Progress Table key under which a job's worker writes. -/
def shortName (file : String) : String :=
  basename file

/-! ## Lock discipline

Each method of `Scheduler`, projected to its primitive operations on
shared state: lock acquire/release and mutations of `_waiting_jobs`,
`_running_threads` and `_current_progress`.  The traces below transcribe
the source line by line.  `annotate` pairs every operation with the number
of times the lock is held when it executes. -/

inductive LOp where
  | acq
  | rel
  | mutWaiting
  | mutRunning
  | mutTable
deriving DecidableEq

def LOp.isMut : LOp → Bool
  | .mutWaiting => true
  | .mutRunning => true
  | .mutTable => true
  | _ => false

def annotate : List LOp → Nat → List (LOp × Nat)
  | [], _ => []
  | op :: rest, d =>
    (op, d) ::
      annotate rest
        (match op with
         | .acq => d + 1
         | .rel => d - 1
         | _ => d)

/-- Every mutation of shared state in the trace executes with the lock
held. -/
def lockedOK (ops : List LOp) : Prop :=
  ∀ p ∈ annotate ops 0, p.1.isMut = true → 1 ≤ p.2

instance (ops : List LOp) : Decidable (lockedOK ops) :=
  List.decidableBAll _ _

/-- `_clean_threads`: acquire; rebuild `_running_threads`; release. -/
def cleanThreadsOps : List LOp :=
  [.acq, .mutRunning, .rel]

/-- `_maybe_run_job` (`launches` = whether the `if` body runs): calls
`_clean_threads`, acquires, possibly pops `_waiting_jobs` and appends to
`_running_threads`, releases. -/
def maybeRunJobOps (launches : Bool) : List LOp :=
  cleanThreadsOps ++ [.acq] ++
    (if launches then [.mutWaiting, .mutRunning] else []) ++ [.rel]

/-- `enqueue_job`: `self._waiting_jobs.append(...)` — before any lock
operation — then `self._maybe_run_job()`. -/
def enqueueJobOps (launches : Bool) : List LOp :=
  .mutWaiting :: maybeRunJobOps launches

/-- One table write from the worker's match branch. -/
def workerMatchOps : List LOp :=
  [.acq, .mutTable, .rel]

/-- The worker's loop exit: forced 100 write, then `_maybe_run_job`. -/
def workerFinishOps (launches : Bool) : List LOp :=
  [.acq, .mutTable, .rel] ++ maybeRunJobOps launches

/-- `_print_progress`: acquire; format; evict (table mutation); release. -/
def printProgressOps : List LOp :=
  [.acq, .mutTable, .rel]

/-! ## Capacity invariant (C1) -/

theorem liveProcCount_cleanThreads_le (s : Sched) :
    liveProcCount (cleanThreads s) ≤ liveProcCount s :=
  (List.filter_sublist s.running).countP_le _

theorem liveProcCount_maybeRunJob (cap : Nat) (s : Sched)
    (h : liveProcCount s ≤ cap) :
    liveProcCount (maybeRunJob cap s) ≤ cap := by
  have hclean := liveProcCount_cleanThreads_le s
  simp only [maybeRunJob]
  split
  · exact le_trans hclean h
  · split
    · next j rest heq hlen =>
      show List.countP _ ((cleanThreads s).running ++ _) ≤ cap
      rw [List.countP_append]
      have h1 : List.countP (fun w => decide (w.procExited = none))
          (cleanThreads s).running ≤ (cleanThreads s).running.length :=
        List.countP_le_length _
      have h2 : List.countP (fun w => decide (w.procExited = none))
          [(⟨(cleanThreads s).nextWid, j, none, false⟩ : Worker)] ≤ 1 :=
        List.countP_le_length _
      omega
    · exact le_trans hclean h

theorem liveProcCount_markProcExited (wid : Nat) (c : ℤ) (l : List Worker) :
    List.countP (fun w => decide (w.procExited = none)) (markProcExited wid c l) ≤
      List.countP (fun w => decide (w.procExited = none)) l := by
  unfold markProcExited
  rw [List.countP_map]
  apply List.countP_mono_left
  intro w _ hw
  simp only [Function.comp] at hw
  by_cases hc : w.wid = wid ∧ w.procExited = none
  · simp [hc] at hw
  · simp only [hc, if_neg, not_false_iff] at hw
    exact hw

theorem liveProcCount_markThreadDead (wid : Nat) (l : List Worker) :
    List.countP (fun w => decide (w.procExited = none)) (markThreadDead wid l) =
      List.countP (fun w => decide (w.procExited = none)) l := by
  unfold markThreadDead
  rw [List.countP_map]
  apply List.countP_congr
  intro w _
  by_cases hc : w.wid = wid <;> simp [hc]

theorem liveProcCount_step (cap : Nat) (s : Sched) (e : Ev)
    (h : liveProcCount s ≤ cap) :
    liveProcCount (step cap s e) ≤ cap := by
  cases e with
  | enqueue j =>
    exact liveProcCount_maybeRunJob cap _ h
  | procExit wid c =>
    exact le_trans (liveProcCount_markProcExited wid c s.running) h
  | finish wid =>
    simp only [step]
    split
    · split
      · show List.countP _ (markThreadDead wid (maybeRunJob cap s).running) ≤ cap
        rw [liveProcCount_markThreadDead]
        exact liveProcCount_maybeRunJob cap s h
      · exact h
    · exact h
  | fault wid =>
    simp only [step]
    split
    · split
      · show List.countP _ (markThreadDead wid s.running) ≤ cap
        rw [liveProcCount_markThreadDead]
        exact h
      · exact h
    · exact h

theorem liveProcCount_foldl (cap : Nat) :
    ∀ (evs : List Ev) (s : Sched), liveProcCount s ≤ cap →
      liveProcCount (evs.foldl (step cap) s) ≤ cap := by
  intro evs
  induction evs with
  | nil => intro s h; exact h
  | cons e rest ih =>
    intro s h
    exact ih (step cap s e) (liveProcCount_step cap s e h)

/-- C1.  In every execution of the scheduler, the number of active-set
workers whose process has not exited is at most `max(core_count - 1, 1)`,
because `_maybe_run_job` launches only when the reaped active set has
strictly fewer than that many members (second conjunct: when the reaped
set already has at least `capacity` members, `_maybe_run_job` launches
nothing). -/
theorem scheduler_capacity_invariant (cpuCount : Nat) :
    (∀ evs : List Ev, liveProcCount (run (capacity cpuCount) evs) ≤ capacity cpuCount) ∧
      (∀ s : Sched, capacity cpuCount ≤ (cleanThreads s).running.length →
        maybeRunJob (capacity cpuCount) s = cleanThreads s) := by
  constructor
  · intro evs
    apply liveProcCount_foldl
    show List.countP _ ([] : List Worker) ≤ _
    simp
  · intro s h
    simp only [maybeRunJob]
    split
    · rfl
    · rw [if_neg (Nat.not_lt.mpr h)]

/-! ## FIFO launch discipline (C2) -/

def fifoInv (s : Sched) : Prop :=
  s.enqueued = s.launched ++ s.waiting

theorem fifoInv_cleanThreads (s : Sched) (h : fifoInv s) :
    fifoInv (cleanThreads s) := h

theorem fifoInv_maybeRunJob (cap : Nat) (s : Sched) (h : fifoInv s) :
    fifoInv (maybeRunJob cap s) := by
  simp only [maybeRunJob]
  split
  · exact h
  · split
    · next j rest heq hlen =>
      show s.enqueued = (s.launched ++ [j]) ++ rest
      have hc : s.waiting = j :: rest := heq
      rw [h, hc, List.append_assoc]
      rfl
    · exact h

theorem fifoInv_step (cap : Nat) (s : Sched) (e : Ev) (h : fifoInv s) :
    fifoInv (step cap s e) := by
  cases e with
  | enqueue j =>
    apply fifoInv_maybeRunJob
    show s.enqueued ++ [j] = s.launched ++ (s.waiting ++ [j])
    rw [h, List.append_assoc]
  | procExit wid c => exact h
  | finish wid =>
    simp only [step]
    split
    · split
      · exact fifoInv_maybeRunJob cap s h
      · exact h
    · exact h
  | fault wid =>
    simp only [step]
    split
    · split
      · exact h
      · exact h
    · exact h

theorem fifoInv_foldl (cap : Nat) :
    ∀ (evs : List Ev) (s : Sched), fifoInv s → fifoInv (evs.foldl (step cap) s) := by
  intro evs
  induction evs with
  | nil => intro s h; exact h
  | cons e rest ih => intro s h; exact ih _ (fifoInv_step cap s e h)

/-- C2.  In every execution: the jobs launched so far, followed by the
jobs still waiting, are exactly the enqueued jobs in enqueue order.
Hence the launch sequence is a prefix of the enqueue sequence (each freed
slot takes the oldest waiting job, no job is duplicated), and once the
waiting queue is empty every enqueued job has been launched exactly
once. -/
theorem scheduler_fifo_exactly_once (cpuCount : Nat) (evs : List Ev) :
    (run (capacity cpuCount) evs).launched ++ (run (capacity cpuCount) evs).waiting =
        (run (capacity cpuCount) evs).enqueued ∧
      ((run (capacity cpuCount) evs).waiting = [] →
        (run (capacity cpuCount) evs).launched = (run (capacity cpuCount) evs).enqueued) := by
  have h : fifoInv (run (capacity cpuCount) evs) := by
    apply fifoInv_foldl
    rfl
  refine ⟨h.symm, fun hw => ?_⟩
  rw [fifoInv] at h
  rw [hw, List.append_nil] at h
  exact h.symm

/-- A concrete execution with 4 CPUs (capacity 3): five jobs enqueued,
one completion. -/
def c1Events : List Ev :=
  [.enqueue 10, .enqueue 11, .enqueue 12, .enqueue 13, .enqueue 14,
   .procExit 0 0, .finish 0]

theorem scheduler_capacity_invariant_witness :
    liveProcCount (run (capacity 4) c1Events) ≤ capacity 4 :=
  (scheduler_capacity_invariant 4).1 c1Events

def c2Events : List Ev :=
  [.enqueue 10, .enqueue 11, .enqueue 12, .procExit 0 0, .finish 0,
   .procExit 1 0, .finish 1, .procExit 2 0, .finish 2]

theorem scheduler_fifo_exactly_once_witness :
    (run (capacity 2) c2Events).launched ++ (run (capacity 2) c2Events).waiting =
        (run (capacity 2) c2Events).enqueued ∧
      ((run (capacity 2) c2Events).waiting = [] →
        (run (capacity 2) c2Events).launched = (run (capacity 2) c2Events).enqueued) :=
  scheduler_fifo_exactly_once 2 c2Events

/-! ## Worker-loop lemmas -/

theorem pyInt_eq_floor (q : ℚ) (h : 0 ≤ q) : pyInt q = ⌊q⌋ := by
  rw [pyInt, Rat.floor_def,
    Int.tdiv_eq_ediv (Rat.num_nonneg.mpr h) (Int.ofNat_nonneg _)]

/-- The values a worker writes are exactly the truncated percentages of its
used matches, in order, followed by the forced `100` iff the loop exited
normally. -/
theorem runWorkerAux_writes_shape (d : ℚ) (hd : d ≠ 0) :
    ∀ (script : List Cycle) (buffer : List Char),
      (runWorkerAux d script buffer).writes =
        (runWorkerAux d script buffer).matched.map (progressOf d) ++
          (if (runWorkerAux d script buffer).outcome = .finished then [100]
           else []) := by
  intro script
  induction script with
  | nil => intro buffer; simp [runWorkerAux]
  | cons c rest ih =>
    intro buffer
    simp only [runWorkerAux]
    split
    · next h m s heq =>
      simp only [if_neg hd]
      by_cases hp : c.poll = some 0
      · simp [hp]
      · simp only [hp, if_neg, not_false_iff]
        simp [ih []]
    · next heq =>
      by_cases hp : c.poll = some 0
      · simp [hp]
      · simp only [hp, if_neg, not_false_iff]
        exact ih (buffer ++ c.chunk)

/-- The loop breaks exactly at a `poll() == 0` observation (given a
nonzero duration, so that no `ZeroDivisionError` can interrupt it). -/
theorem runWorkerAux_finished_iff (d : ℚ) (hd : d ≠ 0) :
    ∀ (script : List Cycle) (buffer : List Char),
      ((runWorkerAux d script buffer).outcome = .finished ↔
        ∃ c ∈ script, c.poll = some 0) := by
  intro script
  induction script with
  | nil =>
    intro buffer
    simp [runWorkerAux]
  | cons c rest ih =>
    intro buffer
    simp only [runWorkerAux]
    split
    · next h m s heq =>
      simp only [if_neg hd]
      by_cases hp : c.poll = some 0
      · simp [hp]
      · simp only [hp, if_neg, not_false_iff]
        simp only [List.mem_cons, exists_eq_or_imp, hp, false_or]
        exact ih []
    · next heq =>
      by_cases hp : c.poll = some 0
      · simp [hp]
      · simp only [hp, if_neg, not_false_iff]
        simp only [List.mem_cons, exists_eq_or_imp, hp, false_or]
        exact ih (buffer ++ c.chunk)

/-- The trailing `self._maybe_run_job()` runs iff the loop exited
normally (on `poll() == 0`); a faulted or still-looping worker never
refills capacity. -/
theorem runWorkerAux_calledMaybeRun (d : ℚ) :
    ∀ (script : List Cycle) (buffer : List Char),
      ((runWorkerAux d script buffer).calledMaybeRun = true ↔
        (runWorkerAux d script buffer).outcome = .finished) := by
  intro script
  induction script with
  | nil => intro buffer; simp [runWorkerAux]
  | cons c rest ih =>
    intro buffer
    simp only [runWorkerAux]
    split
    · next h m s heq =>
      by_cases hd : d = 0
      · simp [hd]
      · simp only [if_neg hd]
        by_cases hp : c.poll = some 0
        · simp [hp]
        · simp only [hp, if_neg, not_false_iff]
          exact ih []
    · next heq =>
      by_cases hp : c.poll = some 0
      · simp [hp]
      · simp only [hp, if_neg, not_false_iff]
        exact ih (buffer ++ c.chunk)

/-- C4.  With a nonzero expected duration (so the loop cannot die on a
`ZeroDivisionError`), the watch loop terminates normally exactly when some
poll observation returns exit code 0 — a process that only ever reports a
non-zero exit code never satisfies the break condition — and on loop exit
the last Progress Table write is the forced `100` and the worker invokes
`_maybe_run_job` (and does so in no other case). -/
theorem worker_loop_exit_condition (d : ℚ) (script : List Cycle) (hd : d ≠ 0) :
    ((runWorker script d).outcome = .finished ↔ ∃ c ∈ script, c.poll = some 0) ∧
      ((runWorker script d).outcome = .finished →
        (runWorker script d).writes.getLast? = some 100 ∧
          (runWorker script d).calledMaybeRun = true) ∧
      ((runWorker script d).calledMaybeRun = true →
        (runWorker script d).outcome = .finished) := by
  refine ⟨runWorkerAux_finished_iff d hd script [], fun hfin => ⟨?_, ?_⟩, ?_⟩
  · rw [runWorker] at hfin ⊢
    rw [runWorkerAux_writes_shape d hd script [], hfin]
    simp
  · exact (runWorkerAux_calledMaybeRun d script []).mpr hfin
  · exact (runWorkerAux_calledMaybeRun d script []).mp

def c4Script : List Cycle :=
  [⟨"time=00:00:10".data, some 1⟩, ⟨"e=00:00:20".data, none⟩,
   ⟨"time=00:00:30".data, some 0⟩]

theorem worker_loop_exit_condition_witness :
    (60 : ℚ) ≠ 0 ∧
      (((runWorker c4Script 60).outcome = .finished ↔
          ∃ c ∈ c4Script, c.poll = some 0) ∧
        ((runWorker c4Script 60).outcome = .finished →
          (runWorker c4Script 60).writes.getLast? = some 100 ∧
            (runWorker c4Script 60).calledMaybeRun = true) ∧
        ((runWorker c4Script 60).calledMaybeRun = true →
          (runWorker c4Script 60).outcome = .finished)) :=
  ⟨by norm_num, worker_loop_exit_condition 60 c4Script (by norm_num)⟩

/-! ## The percentage formula (C5) -/

/-- C5.  On a read cycle whose accumulated buffer matches
`time=(\d+):(\d+):(\d+)`, the value written first is the floor (= Python
`int` truncation, the quantity being nonnegative) of
`100 * (3600*HH + 60*MM + SS) / d`, computed from the buffer's first
match; additionally, with two timestamps in one buffer only the leftmost
is used, and `time=00:00:31` against 60 s truncates `51.67` to `51`
rather than rounding. -/
theorem worker_progress_formula :
    (∀ (d : ℚ) (buffer : List Char) (c : Cycle) (rest : List Cycle)
        (h m s : Nat), 0 < d →
        findTime (buffer ++ c.chunk) = some (h, m, s) →
        (runWorkerAux d (c :: rest) buffer).writes.head? =
          some ⌊100 * (elapsedSeconds h m s : ℚ) / d⌋) ∧
      findTime ("time=00:00:30 time=00:00:45".data) = some (0, 0, 30) ∧
      (runWorker [⟨"time=00:00:31".data, some 0⟩] 60).writes.head? = some 51 := by
  refine ⟨?_, by decide, by with_unfolding_all rfl⟩
  intro d buffer c rest h m s hd hfind
  have hw : progressOf d (elapsedSeconds h m s) =
      ⌊100 * (elapsedSeconds h m s : ℚ) / d⌋ := by
    rw [progressOf]
    exact pyInt_eq_floor _ (by positivity)
  simp only [runWorkerAux]
  rw [hfind]
  simp only [if_neg hd.ne']
  by_cases hp : c.poll = some 0
  · simp [hp, hw]
  · simp [hp, hw]

def c5Cycle : Cycle :=
  ⟨"time=00:00:30".data, some 0⟩

theorem worker_progress_formula_witness :
    (runWorkerAux 60 [c5Cycle] []).writes.head? = some 50 := by
  have h :=
    worker_progress_formula.1 60 [] c5Cycle [] 0 0 30 (by norm_num) (by decide)
  rw [h]
  with_unfolding_all rfl

/-! ## Progress range and monotonicity (C6) -/

theorem progressOf_nonneg (d : ℚ) (hd : 0 < d) (t : ℕ) :
    0 ≤ progressOf d t := by
  rw [progressOf, pyInt_eq_floor _ (by positivity)]
  exact Int.floor_nonneg.mpr (by positivity)

theorem progressOf_le_100 (d : ℚ) (hd : 0 < d) (t : ℕ) (ht : (t : ℚ) ≤ d) :
    progressOf d t ≤ 100 := by
  rw [progressOf, pyInt_eq_floor _ (by positivity)]
  have hq : (100 : ℚ) * t / d ≤ 100 := by
    rw [div_le_iff₀ hd]
    nlinarith
  calc ⌊(100 : ℚ) * t / d⌋ ≤ ⌊((100 : ℤ) : ℚ)⌋ := Int.floor_le_floor (by exact_mod_cast hq)
    _ = 100 := Int.floor_intCast 100

theorem progressOf_mono (d : ℚ) (hd : 0 < d) {t₁ t₂ : ℕ} (h : t₁ ≤ t₂) :
    progressOf d t₁ ≤ progressOf d t₂ := by
  rw [progressOf, progressOf, pyInt_eq_floor _ (by positivity),
    pyInt_eq_floor _ (by positivity)]
  apply Int.floor_le_floor
  gcongr

/-- C6 (amended).  Provided the expected duration is positive, the matched
elapsed times never exceed it, and they arrive in non-decreasing order
(all true of a well-behaved ffmpeg stream, but not enforced by the code),
every value the worker stores is an integer in `[0, 100]` and the stored
sequence — up to and including the final forced `100` — is monotonically
non-decreasing. -/
theorem worker_progress_bounds_monotone (d : ℚ) (script : List Cycle)
    (hd : 0 < d)
    (hle : ∀ t ∈ (runWorker script d).matched, (t : ℚ) ≤ d)
    (hmono : (runWorker script d).matched.Chain' (· ≤ ·)) :
    (∀ w ∈ (runWorker script d).writes, 0 ≤ w ∧ w ≤ 100) ∧
      (runWorker script d).writes.Chain' (· ≤ ·) := by
  have hshape := runWorkerAux_writes_shape d hd.ne' script []
  rw [runWorker] at hle hmono ⊢
  constructor
  · intro w hw
    rw [hshape] at hw
    rcases List.mem_append.mp hw with hw | hw
    · rcases List.mem_map.mp hw with ⟨t, ht, rfl⟩
      exact ⟨progressOf_nonneg d hd t, progressOf_le_100 d hd t (hle t ht)⟩
    · split at hw
      · rcases List.mem_singleton.mp hw with rfl
        exact ⟨by norm_num, le_refl _⟩
      · exact absurd hw (List.not_mem_nil w)
  · rw [hshape]
    apply List.chain'_append.mpr
    refine ⟨?_, ?_, ?_⟩
    · rw [List.chain'_map]
      exact hmono.imp fun a b hab => progressOf_mono d hd hab
    · split
      · exact List.chain'_singleton 100
      · exact List.chain'_nil
    · intro x hx y hy
      split at hy
      · simp only [List.head?_cons, Option.mem_def, Option.some.injEq] at hy
        subst hy
        obtain ⟨hne, rfl⟩ := List.mem_getLast?_eq_getLast hx
        rcases List.mem_map.mp (List.getLast_mem hne) with ⟨t, ht, heq⟩
        rw [← heq]
        exact progressOf_le_100 d hd t (hle t ht)
      · simp at hy

/-- A worker observing a timestamp past the end of the file: expected
duration 100 s, stream reporting `time=00:01:41` (101 s), then
`time=00:00:30` before exit. -/
def c6CexScript : List Cycle :=
  [⟨"time=00:01:41".data, some (-1)⟩, ⟨"time=00:00:30".data, some 0⟩]

/-- C6 (counterexample).  The worker stores `101` — outside `[0, 100]` —
when the matched elapsed time exceeds the expected duration, and the
stored sequence `[101, 30, 100]` is not monotone. -/
theorem worker_progress_bounds_counterexample :
    ¬ ((∀ w ∈ (runWorker c6CexScript 100).writes, 0 ≤ w ∧ w ≤ 100) ∧
        (runWorker c6CexScript 100).writes.Chain' (· ≤ ·)) := by
  have h : (runWorker c6CexScript 100).writes = [101, 30, 100] := by
    with_unfolding_all rfl
  rw [h]
  rintro ⟨h1, -⟩
  exact absurd (h1 101 (by simp)).2 (by norm_num)

def c6WitnessScript : List Cycle :=
  [⟨"time=00:00:30".data, none⟩, ⟨"time=00:00:45".data, some 0⟩]

theorem worker_progress_bounds_monotone_witness :
    (∀ w ∈ (runWorker c6WitnessScript 60).writes, 0 ≤ w ∧ w ≤ 100) ∧
      (runWorker c6WitnessScript 60).writes.Chain' (· ≤ ·) := by
  have hm : (runWorker c6WitnessScript 60).matched = [30, 45] := by
    with_unfolding_all rfl
  refine worker_progress_bounds_monotone 60 c6WitnessScript (by norm_num) ?_ ?_
  · rw [hm]
    intro t ht
    simp only [List.mem_cons, List.not_mem_nil, or_false] at ht
    rcases ht with rfl | rfl <;> norm_num
  · rw [hm]
    exact List.chain'_cons.mpr ⟨by norm_num, List.chain'_singleton _⟩

/-! ## Zero expected duration (C3) -/

/-- C3 is violated by the code: with expected duration 0 the percentage
computation `int(100 * elapsed / expected_duration)` performs an unguarded
division, so the first timestamp match raises `ZeroDivisionError` — the
worker dies with no Progress Table write at all (no immediate `100`), no
forced completion write and no capacity refill. -/
theorem zero_duration_division_fault :
    runWorker [⟨"time=00:00:30".data, some 0⟩] 0 =
      ⟨[], [], .faulted, false⟩ := by
  with_unfolding_all rfl

/-! ## The progress reporter (C7) -/

theorem mem_key_eq_of_nodup :
    ∀ (t : List (String × ℤ)), (t.map Prod.fst).Nodup →
      ∀ e ∈ t, ∀ f ∈ t, e.1 = f.1 → e = f := by
  intro t
  induction t with
  | nil => intro _ e he; exact absurd he (List.not_mem_nil e)
  | cons a rest ih =>
    intro hnd e he f hf hef
    rw [List.map_cons, List.nodup_cons] at hnd
    rcases List.mem_cons.mp he with rfl | he' <;>
      rcases List.mem_cons.mp hf with rfl | hf'
    · rfl
    · exact absurd (hef ▸ List.mem_map_of_mem Prod.fst hf') hnd.1
    · exact absurd (hef ▸ List.mem_map_of_mem Prod.fst he') hnd.1
    · exact ih hnd.2 e he' f hf' hef

theorem dictGet_of_mem (t : List (String × ℤ))
    (hnd : (t.map Prod.fst).Nodup) (e : String × ℤ) (he : e ∈ t) :
    dictGet t e.1 = some e.2 := by
  induction t with
  | nil => exact absurd he (List.not_mem_nil e)
  | cons a rest ih =>
    rw [List.map_cons, List.nodup_cons] at hnd
    rcases List.mem_cons.mp he with rfl | he'
    · simp [dictGet]
    · have hne : a.1 ≠ e.1 := by
        intro hcontra
        exact hnd.1 (hcontra ▸ List.mem_map_of_mem Prod.fst he')
      rw [dictGet, List.find?_cons_of_neg _ (by simpa using hne)]
      exact ih hnd.2 he'

theorem dictPop_eq_filter (t : List (String × ℤ)) (k : String)
    (hnd : (t.map Prod.fst).Nodup) :
    dictPop t k = t.filter (fun e => !decide (e.1 = k)) := by
  induction t with
  | nil => rfl
  | cons a rest ih =>
    rw [List.map_cons, List.nodup_cons] at hnd
    by_cases ha : a.1 = k
    · rw [dictPop, List.eraseP_cons_of_pos (by simpa using ha)]
      rw [List.filter_cons_of_neg (by simpa using ha)]
      symm
      rw [List.filter_eq_self]
      intro e he
      simp only [Bool.not_eq_true', decide_eq_false_iff_not]
      intro hek
      exact hnd.1 ((ha ▸ hek ▸ rfl : a.1 = e.1) ▸ List.mem_map_of_mem Prod.fst he)
    · rw [dictPop, List.eraseP_cons_of_neg (by simpa using ha)]
      rw [List.filter_cons_of_pos (by simpa using ha)]
      rw [← dictPop, ih hnd.2]

theorem nodup_keys_dictPop (t : List (String × ℤ)) (k : String)
    (hnd : (t.map Prod.fst).Nodup) :
    ((dictPop t k).map Prod.fst).Nodup :=
  ((List.eraseP_sublist t).map Prod.fst).nodup hnd

theorem evictLoop_eq_filter :
    ∀ (ks : List String) (t : List (String × ℤ)),
      (t.map Prod.fst).Nodup →
      evictLoop ks t =
        t.filter (fun e => !(decide (e.1 ∈ ks) && decide (e.2 = 100))) := by
  intro ks
  induction ks with
  | nil =>
    intro t _
    rw [evictLoop]
    symm
    rw [List.filter_eq_self]
    intro e _
    simp
  | cons k ks ih =>
    intro t hnd
    rw [evictLoop]
    by_cases hk : dictGet t k = some 100
    · rw [if_pos hk, ih _ (nodup_keys_dictPop t k hnd),
        dictPop_eq_filter t k hnd, List.filter_filter]
      apply List.filter_congr
      intro e he
      by_cases hek : e.1 = k
      · have : e.2 = 100 := by
          obtain ⟨f, hf, hfv⟩ := Option.map_eq_some'.mp hk
          have hfk : f.1 = k := by simpa using List.find?_some hf
          have : e = f :=
            mem_key_eq_of_nodup t hnd e he f (List.mem_of_find?_eq_some hf)
              (hek.trans hfk.symm)
          rw [this, hfv]
        simp [hek, this]
      · simp [hek]
    · rw [if_neg hk, ih _ hnd]
      apply List.filter_congr
      intro e he
      by_cases hek : e.1 = k
      · have : e.2 ≠ 100 := by
          intro h100
          apply hk
          have := dictGet_of_mem t hnd e he
          rw [hek, h100] at this
          exact this
        simp [hek, this]
      · simp [hek]

/-- C7.  `_print_progress` first formats every current Progress Table
entry — including those at 100% — and only afterwards evicts exactly the
entries whose value is 100, leaving the others untouched; hence a
completed job appears in the report produced by this call and in no later
one. -/
theorem print_progress_format_then_evict (t : List (String × ℤ))
    (hnd : (t.map Prod.fst).Nodup) :
    (printProgress t).1 = t.map fmtEntry ∧
      (printProgress t).2 = t.filter (fun e => !decide (e.2 = 100)) := by
  refine ⟨rfl, ?_⟩
  show evictLoop (t.map Prod.fst) t = _
  rw [evictLoop_eq_filter _ _ hnd]
  apply List.filter_congr
  intro e he
  have : e.1 ∈ t.map Prod.fst := List.mem_map_of_mem Prod.fst he
  simp [this]

def c7Table : List (String × ℤ) :=
  [("ch01.mp3", 100), ("ch02.mp3", 40), ("ch03.mp3", 100)]

theorem print_progress_format_then_evict_witness :
    (printProgress c7Table).1 = c7Table.map fmtEntry ∧
      (printProgress c7Table).2 =
        c7Table.filter (fun e => !decide (e.2 = 100)) :=
  print_progress_format_then_evict c7Table (by decide)

/-! ## `wait_till_all_finished` (C8) -/

/-- C8.  `wait_till_all_finished` returns only when, after reaping dead
workers, both the waiting queue and the active-worker set are empty — and
each poll cycle that does not exit performs, in order, the reap, the
(failed) empty/empty check, one progress report and a 2-second sleep;
a returning run's final cycle performs the reap and the successful check. -/
theorem wait_till_all_finished_spec (cap : Nat) :
    ∀ (schedule : List (List Ev)) (s : Sched),
      ((waitLoop cap schedule s).returned = true →
        (waitLoop cap schedule s).final.waiting = [] ∧
          (waitLoop cap schedule s).final.running = []) ∧
      ∃ k, (waitLoop cap schedule s).trace =
        waitTrace k (waitLoop cap schedule s).returned := by
  intro schedule
  induction schedule with
  | nil =>
    intro s
    constructor
    · intro h
      exact absurd h (by simp [waitLoop])
    · exact ⟨0, by simp [waitLoop, waitTrace]⟩
  | cons evs rest ih =>
    intro s
    simp only [waitLoop]
    split
    · next hcond =>
      exact ⟨fun _ => hcond, 0, by simp [waitTrace]⟩
    · next hcond =>
      constructor
      · intro h
        exact (ih _).1 h
      · obtain ⟨k, hk⟩ := (ih (cleanThreads (evs.foldl (step cap) s))).2
        refine ⟨k + 1, ?_⟩
        rw [hk, waitTrace, waitTrace, List.replicate_succ, List.flatten_cons]
        simp

/-- A schedule on which the wait loop returns after one full poll cycle:
one job is enqueued before the first cycle; its process exits with code 0
and its worker finishes before the second. -/
def c8Schedule : List (List Ev) :=
  [[.enqueue 5], [.procExit 0 0, .finish 0]]

theorem wait_till_all_finished_spec_witness :
    ((waitLoop 1 c8Schedule Sched.init).returned = true →
        (waitLoop 1 c8Schedule Sched.init).final.waiting = [] ∧
          (waitLoop 1 c8Schedule Sched.init).final.running = []) ∧
      ∃ k, (waitLoop 1 c8Schedule Sched.init).trace =
        waitTrace k (waitLoop 1 c8Schedule Sched.init).returned :=
  wait_till_all_finished_spec 1 c8Schedule Sched.init

/-! ## Lock discipline (C9) -/

/-- C9 (counterexample).  `enqueue_job` mutates the waiting queue (its
`append`) while the lock is held zero times: the claim that every shared-
state mutation happens under the lock is false of the code. -/
theorem lock_discipline_counterexample :
    ¬ lockedOK (enqueueJobOps true) := by
  decide

/-- C9 (amended).  Every mutation of `_running_threads`,
`_current_progress` and the queue pop inside `_maybe_run_job` executes
with the lock held; the single exception is `enqueue_job`, whose queue
append is its first operation, performed before any lock acquisition
(after which it proceeds exactly as `_maybe_run_job`). -/
theorem lock_discipline_amended :
    lockedOK cleanThreadsOps ∧
      (∀ b, lockedOK (maybeRunJobOps b)) ∧
      lockedOK printProgressOps ∧
      lockedOK workerMatchOps ∧
      (∀ b, lockedOK (workerFinishOps b)) ∧
      (∀ b, enqueueJobOps b = LOp.mutWaiting :: maybeRunJobOps b) := by
  refine ⟨by decide, fun b => by cases b <;> decide, by decide, by decide,
    fun b => by cases b <;> decide, fun b => rfl⟩

theorem lock_discipline_amended_witness :
    lockedOK (maybeRunJobOps true) ∧
      enqueueJobOps true = LOp.mutWaiting :: maybeRunJobOps true :=
  ⟨lock_discipline_amended.2.1 true, lock_discipline_amended.2.2.2.2.2 true⟩

/-! ## Progress Table key collisions (C10) -/

/-- C10.  The Progress Table key is `os.path.basename` of the job's source
file, so two jobs whose source files share a base name — even in different
directories — share one table entry: the second write overwrites the
first and a single entry remains for both jobs. -/
theorem basename_key_collision (f1 f2 : String) (v1 v2 : ℤ)
    (h : basename f1 = basename f2) :
    shortName f1 = shortName f2 ∧
      dictSet (dictSet [] (shortName f1) v1) (shortName f2) v2 =
        [(shortName f1, v2)] := by
  refine ⟨h, ?_⟩
  rw [shortName, shortName, ← h]
  simp [dictSet]

theorem basename_key_collision_witness :
    basename "audio/part1/ch01.mp3" = basename "audio/part2/ch01.mp3" ∧
      (shortName "audio/part1/ch01.mp3" = shortName "audio/part2/ch01.mp3" ∧
        dictSet (dictSet [] (shortName "audio/part1/ch01.mp3") 40)
            (shortName "audio/part2/ch01.mp3") 55 =
          [(shortName "audio/part1/ch01.mp3", 55)]) :=
  ⟨by decide, basename_key_collision "audio/part1/ch01.mp3"
    "audio/part2/ch01.mp3" 40 55 (by decide)⟩

end Audiotools
